import Mathlib

/-!
Shallow embedding of the `rerunsrv` search engine (src/main.go).

Go strings are modelled as `List Char` (all operations the engine performs —
TrimRight over an ASCII cutset, HasPrefix, Contains, Fields, rune iteration,
space removal — act identically on bytes of valid UTF-8 and on chars).
`strings.ToLower` is modelled by its ASCII restriction; no claim depends on
non-ASCII folding behaviour.  Go `int` is modelled as `Int`; the slice
expressions `s[:k]` that panic for `k < 0` are modelled via `Except GoPanic`,
as is the explicit `panic` on a missing restore-case entry.  The shared
`*internalRequest` pointer handed to every strategy is modelled by strategies
returning a (possibly updated) request, since `recent` assigns to `req.cmds`.
The external fuzzy capability (`fuzzy.RankFind`) is a parameter (an oracle);
`slices.SortStableFunc` is modelled by insertion sort, which agrees with every
stable sort because the comparator is a total preorder.
-/

namespace Rerun

abbrev GoStr := List Char

/-- Convenience constructor for concrete `GoStr` literals. -/
def gs (s : String) : GoStr := s.toList

/-- The cutset of `strings.TrimRight(cmd, ";\\ \t\n\r")` in `normalize`. -/
def isCutset (c : Char) : Bool :=
  c == ';' || c == '\\' || c == ' ' || c == '\t' || c == '\n' || c == '\r'

/-- Model of `func normalize(cmd string) string { return strings.TrimRight(cmd, ";\\ \t\n\r") }` -/
def normalize (cmd : GoStr) : GoStr := (cmd.reverse.dropWhile isCutset).reverse

/-- ASCII restriction of `strings.ToLower` on a single character. -/
def toLowerChar (c : Char) : Char :=
  if 'A' ≤ c ∧ c ≤ 'Z' then Char.ofNat (c.toNat + 32) else c

/-- Model of `strings.ToLower` (ASCII restriction). -/
def toLowerStr (s : GoStr) : GoStr := s.map toLowerChar

/-- Model of `unicode.IsSpace`: the Unicode White_Space property, encoded exactly. -/
def goIsSpace (c : Char) : Bool :=
  let n := c.toNat
  (0x09 ≤ n && n ≤ 0x0D) || n == 0x20 || n == 0x85 || n == 0xA0 || n == 0x1680 ||
    (0x2000 ≤ n && n ≤ 0x200A) || n == 0x2028 || n == 0x2029 || n == 0x202F ||
    n == 0x205F || n == 0x3000

/-- Model of `strings.Fields`: maximal runs of non-space characters, no empty fields. -/
def goFields (s : GoStr) : List GoStr :=
  (s.splitOnP goIsSpace).filter (fun w => !w.isEmpty)

/-- Model of `strings.HasPrefix(s, pre)`. -/
def goHasPre (s pre : GoStr) : Bool := pre.isPrefixOf s

/-- Model of `strings.Contains(s, sub)`. -/
def goContains (s sub : GoStr) : Bool := decide (sub <:+: s)

/-- Model of `strings.NewReplacer(" ", "").Replace`: delete every space (U+0020). -/
def stripSpaces (s : GoStr) : GoStr := s.filter (fun c => c != ' ')

/-- The de-dupe loop of `newServer`: iterate (the already reversed) history,
normalize each command, keep first occurrences, in visitation order.
`seen` is the membership set of the Go `seen` map. -/
def dedupNormalize : List GoStr → List GoStr → List GoStr
  | [], _ => []
  | h :: t, seen =>
    if normalize h ∈ seen then dedupNormalize t seen
    else normalize h :: dedupNormalize t (normalize h :: seen)

structure Server where
  cmds : List GoStr
  lowerCmds : List GoStr
  restoreCase : GoStr → List GoStr

/-- Model of `newServer`.  The Go loop `restoreCase[lower] = append(restoreCase[lower], cmd)`
builds, at each key, exactly the in-order list of commands whose fold is that key;
a missing key reads as the empty list (Go `nil`), hence the `filter` model. -/
def newServer (hist : List GoStr) : Server :=
  let cmds := dedupNormalize hist.reverse []
  { cmds := cmds
    lowerCmds := cmds.map toLowerStr
    restoreCase := fun lower => cmds.filter (fun c => toLowerStr c == lower) }

inductive GoPanic where
  | sliceBounds
  | missingRestoreCase
deriving DecidableEq

structure IReq where
  cmds : List GoStr
  query : GoStr
  maxResults : Int
deriving DecidableEq

structure Request where
  query : GoStr
  caseSensitive : Bool
  maxResults : Int

/-- A strategy receives the shared `*internalRequest` and returns its matches
together with the (possibly mutated) request. -/
abbrev Strategy := IReq → Except GoPanic (List GoStr × IReq)

/-- Model of `fuzzy.Rank` (the fields the engine reads). -/
structure Rank where
  target : GoStr
  distance : Int
  originalIndex : Int
deriving DecidableEq

/-- The external fuzzy capability `fuzzy.RankFind`. -/
abbrev RankOracle := GoStr → List GoStr → List Rank

/-- Documented contract of the capability: it ranks only entries of the
supplied corpus slice. -/
def OracleOK (oracle : RankOracle) : Prop :=
  ∀ q cmds rk, rk ∈ oracle q cmds → rk.target ∈ cmds

/-- The comparator passed to `slices.SortStableFunc` in `fuzzyMatch`
(Go `/` truncates toward zero, hence `Int.tdiv`). -/
def cmpRank (x y : Rank) : Int :=
  let xd := Int.tdiv x.distance 64
  let yd := Int.tdiv y.distance 64
  if xd ≠ yd then xd - yd else x.originalIndex - y.originalIndex

def rankLE (x y : Rank) : Prop := cmpRank x y ≤ 0

instance : DecidableRel rankLE := fun x y => inferInstanceAs (Decidable (cmpRank x y ≤ 0))

/-- Model of `func recent(req *internalRequest) []string`.  Note the in-place
truncation `req.cmds = req.cmds[:req.maxResults]` of the shared request;
slicing with a negative bound panics. -/
def recent : Strategy := fun r =>
  if r.query ≠ [] then .ok ([], r)
  else if (r.cmds.length : Int) > r.maxResults then
    if 0 ≤ r.maxResults then
      let c := r.cmds.take r.maxResults.toNat
      .ok (c, { r with cmds := c })
    else .error .sliceBounds
  else .ok (r.cmds, r)

/-- The shared accumulation loop of `singleMatch`/`multiMatch`: append each
`cmd` with `p cmd`, and break as soon as `len(results) >= maxResults` holds
after an append.  `k` is the current length of `results`. -/
def collectMatches (p : GoStr → Bool) (maxResults : Int) : List GoStr → Nat → List GoStr
  | [], _ => []
  | c :: rest, k =>
    if p c then
      if ((k + 1 : Nat) : Int) ≥ maxResults then [c]
      else c :: collectMatches p maxResults rest (k + 1)
    else collectMatches p maxResults rest k

def singleMatch (fn : GoStr → GoStr → Bool) : Strategy := fun r =>
  .ok (collectMatches (fun c => fn c r.query) r.maxResults r.cmds 0, r)

def prefixMatch : Strategy := singleMatch goHasPre

def substringMatch : Strategy := singleMatch goContains

/-- Greedy scan of `matchSlices`: for each needle advance the cursor through the
haystack until `fn` matches, consume that element, else fail. -/
def matchGreedy (fn : GoStr → GoStr → Bool) : List GoStr → List GoStr → Bool
  | _, [] => true
  | [], _ :: _ => false
  | h :: hs, n :: ns => if fn h n then matchGreedy fn hs ns else matchGreedy fn hs (n :: ns)

/-- Model of `func matchSlices(haystack, needles []string, fn func(a, b string) bool) bool`
(the `len(needles) == 0` early return is subsumed by the scan returning
`true` on no needles). -/
def matchSlices (haystack needles : List GoStr) (fn : GoStr → GoStr → Bool) : Bool :=
  if needles.length > haystack.length then false
  else matchGreedy fn haystack needles

def multiMatch (needles : List GoStr) (fn : GoStr → GoStr → Bool) : Strategy := fun r =>
  .ok (collectMatches (fun c => matchSlices (goFields c) needles fn) r.maxResults r.cmds 0, r)

def multiPrefixMatch : Strategy := fun r => multiMatch (goFields r.query) goHasPre r

def multiSubstringMatch : Strategy := fun r => multiMatch (goFields r.query) goContains r

/-- Model of `anchoredPrefixMatch`: one single-character needle per rune of the query. -/
def anchoredPrefixMatch : Strategy := fun r =>
  multiMatch (r.query.map (fun c => [c])) goHasPre r

/-- Model of `func fuzzyMatch(req *internalRequest) []string`, parameterized by the
external capability.  `slices.SortStableFunc` with the `cmpRank` comparator is
modelled by stable insertion sort on `rankLE`; `matches[:req.maxResults]`
panics for a negative bound. -/
def fuzzyMatch (oracle : RankOracle) : Strategy := fun r =>
  let query := stripSpaces r.query
  let ranks := oracle query r.cmds
  let sorted := List.insertionSort rankLE ranks
  if (sorted.length : Int) > r.maxResults then
    if 0 ≤ r.maxResults then
      .ok ((sorted.take r.maxResults.toNat).map Rank.target, r)
    else .error .sliceBounds
  else .ok (sorted.map Rank.target, r)

/-- Model of `var searchers = []searcher{...}` in their fixed priority order. -/
def searchers (oracle : RankOracle) : List Strategy :=
  [recent, prefixMatch, substringMatch, multiPrefixMatch, multiSubstringMatch,
    anchoredPrefixMatch, fuzzyMatch oracle]

/-- Inner loop of `search`: append each restored command not yet `seen`,
marking it seen.  Returns the updated `(results, seen)`. -/
def pushUnseen : List GoStr → List GoStr → List GoStr → List GoStr × List GoStr
  | [], results, seen => (results, seen)
  | c :: cs, results, seen =>
    if c ∈ seen then pushUnseen cs results seen
    else pushUnseen cs (results ++ [c]) (c :: seen)

/-- Per-strategy output processing in `search`: restore casing (panicking on a
missing restore-case entry) and de-duplicate into `results`/`seen`. -/
def processOuts (cs : Bool) (restoref : GoStr → List GoStr) :
    List GoStr → List GoStr → List GoStr → Except GoPanic (List GoStr × List GoStr)
  | [], results, seen => .ok (results, seen)
  | out :: outs, results, seen =>
    if cs then
      let rs := pushUnseen [out] results seen
      processOuts cs restoref outs rs.1 rs.2
    else
      let cmds := restoref out
      if cmds = [] then .error .missingRestoreCase
      else
        let rs := pushUnseen cmds results seen
        processOuts cs restoref outs rs.1 rs.2

/-- The restored-command list `cmds` for one strategy output (`[]string{out}`
when case-sensitive, the restore-case entry otherwise). -/
def restoreExpand (cs : Bool) (restoref : GoStr → List GoStr) (out : GoStr) : List GoStr :=
  if cs then [out] else restoref out

/-- The strategy cascade of `search`, instrumented with the list of views
(`ir.cmds` values) handed to each invoked strategy.  After each strategy,
`if len(results) >= req.MaxResults { return results[:req.MaxResults] }`
(panicking for a negative bound). -/
def cascade (cs : Bool) (restoref : GoStr → List GoStr) (maxResults : Int) :
    List Strategy → IReq → List GoStr → List GoStr →
    Except GoPanic (List GoStr) × List (List GoStr)
  | [], _, results, _ => (.ok results, [])
  | fn :: fns, ir, results, seen =>
    match fn ir with
    | .error e => (.error e, [ir.cmds])
    | .ok (got, ir') =>
      match processOuts cs restoref got results seen with
      | .error e => (.error e, [ir.cmds])
      | .ok (results', seen') =>
        if (results'.length : Int) ≥ maxResults then
          if 0 ≤ maxResults then (.ok (results'.take maxResults.toNat), [ir.cmds])
          else (.error .sliceBounds, [ir.cmds])
        else
          let rest := cascade cs restoref maxResults fns ir' results' seen'
          (rest.1, ir.cmds :: rest.2)

/-- View selection at the top of `search`. -/
def initIReq (srv : Server) (req : Request) : IReq :=
  if req.caseSensitive then ⟨srv.cmds, req.query, req.maxResults⟩
  else ⟨srv.lowerCmds, toLowerStr req.query, req.maxResults⟩

def searchWithViews (oracle : RankOracle) (srv : Server) (req : Request) :
    Except GoPanic (List GoStr) × List (List GoStr) :=
  cascade req.caseSensitive srv.restoreCase req.maxResults (searchers oracle)
    (initIReq srv req) [] []

/-- Model of `func (srv *Server) search(req *Request) []string`. -/
def search (oracle : RankOracle) (srv : Server) (req : Request) :
    Except GoPanic (List GoStr) :=
  (searchWithViews oracle srv req).1

/-- A strategy is nice when, on success, its output and the updated request
view draw only from the request view it was handed, and it leaves the query
and budget unchanged. -/
def StratNice (fn : Strategy) : Prop :=
  ∀ r got r', fn r = .ok (got, r') →
    got ⊆ r.cmds ∧ r'.cmds ⊆ r.cmds ∧ r'.query = r.query ∧ r'.maxResults = r.maxResults

/-- A strategy is pure when it returns the request it was handed unchanged
(every strategy except `recent`). -/
def StratPure (fn : Strategy) : Prop :=
  ∀ r got r', fn r = .ok (got, r') → r' = r

/-- A strategy's only panic is the slice-bounds panic (no strategy raises the
missing-restore-case panic; that one lives in `search` itself). -/
def StratSafeErr (fn : Strategy) : Prop :=
  ∀ r e, fn r = .error e → e = GoPanic.sliceBounds

/-- A strategy is total on nonnegative budgets: it can only panic when the
request's `maxResults` is negative. -/
def StratTotal (fn : Strategy) : Prop :=
  ∀ r, 0 ≤ r.maxResults → ∃ got r', fn r = .ok (got, r')

/-- A witnessing assignment for the ordered-subsequence contract: a strictly
increasing sequence of haystack positions, one per needle, with `fn` true at
every pair. -/
def ExistsIncreasingMatch (fn : GoStr → GoStr → Bool) (hs ns : List GoStr) : Prop :=
  ∃ idx : Fin ns.length → Fin hs.length, StrictMono idx ∧
    ∀ j : Fin ns.length, fn (hs.get (idx j)) (ns.get j) = true

/-- Relational version of the ordered-subsequence property, used to bridge
between the greedy scan and `ExistsIncreasingMatch`. -/
inductive MatchSub (fn : GoStr → GoStr → Bool) : List GoStr → List GoStr → Prop
  | nil (hs : List GoStr) : MatchSub fn hs []
  | cons {h : GoStr} {hs : List GoStr} {n : GoStr} {ns : List GoStr} :
      fn h n = true → MatchSub fn hs ns → MatchSub fn (h :: hs) (n :: ns)
  | skip {h : GoStr} {hs : List GoStr} {ns : List GoStr} :
      MatchSub fn hs ns → MatchSub fn (h :: hs) ns

/-! ### The ordered-subsequence matcher -/

theorem matchGreedy_nil_needles (fn : GoStr → GoStr → Bool) (hs : List GoStr) :
    matchGreedy fn hs [] = true := by
  cases hs <;> rfl

theorem matchSub_of_greedy {fn : GoStr → GoStr → Bool} :
    ∀ {hs ns : List GoStr}, matchGreedy fn hs ns = true → MatchSub fn hs ns := by
  intro hs
  induction hs with
  | nil =>
    intro ns h
    cases ns with
    | nil => exact MatchSub.nil []
    | cons n ns => simp [matchGreedy] at h
  | cons hd tl ih =>
    intro ns hg
    cases ns with
    | nil => exact MatchSub.nil _
    | cons n ns =>
      cases hfn : fn hd n with
      | false =>
        simp only [matchGreedy, hfn] at hg
        simp at hg
        exact MatchSub.skip (ih hg)
      | true =>
        simp only [matchGreedy, hfn] at hg
        simp at hg
        exact MatchSub.cons hfn (ih hg)

theorem matchSub_drop {fn : GoStr → GoStr → Bool} {hs ms : List GoStr}
    (h : MatchSub fn hs ms) :
    ∀ {n : GoStr} {ns : List GoStr}, ms = n :: ns → MatchSub fn hs ns := by
  induction h with
  | nil hs => intro n ns heq; cases heq
  | cons hfn hsub ih => intro n ns heq; cases heq; exact MatchSub.skip hsub
  | skip hsub ih => intro n ns heq; exact MatchSub.skip (ih heq)

theorem matchSub_of_cons {fn : GoStr → GoStr → Bool} {hs : List GoStr} {n : GoStr}
    {ns : List GoStr} (h : MatchSub fn hs (n :: ns)) : MatchSub fn hs ns :=
  matchSub_drop h rfl

theorem greedy_of_matchSub {fn : GoStr → GoStr → Bool} :
    ∀ {hs ns : List GoStr}, MatchSub fn hs ns → matchGreedy fn hs ns = true := by
  intro hs
  induction hs with
  | nil =>
    intro ns h
    cases h
    rfl
  | cons hd tl ih =>
    intro ns h
    cases ns with
    | nil => exact matchGreedy_nil_needles fn _
    | cons n ns =>
      cases hfn : fn hd n with
      | false =>
        simp only [matchGreedy, hfn]
        simp only [Bool.false_eq_true, if_false]
        cases h with
        | cons hfn2 hsub => rw [hfn] at hfn2; cases hfn2
        | skip hsub => exact ih hsub
      | true =>
        simp only [matchGreedy, hfn, if_true]
        cases h with
        | cons hfn2 hsub => exact ih hsub
        | skip hsub => exact ih (matchSub_of_cons hsub)

theorem matchGreedy_iff {fn : GoStr → GoStr → Bool} {hs ns : List GoStr} :
    matchGreedy fn hs ns = true ↔ MatchSub fn hs ns :=
  ⟨matchSub_of_greedy, greedy_of_matchSub⟩

theorem matchSub_iff_sublist {fn : GoStr → GoStr → Bool} {hs ns : List GoStr} :
    MatchSub fn hs ns ↔ ∃ l, l.Sublist hs ∧ List.Forall₂ (fun a b => fn a b = true) l ns := by
  constructor
  · intro h
    induction h with
    | nil hs => exact ⟨[], List.nil_sublist _, List.Forall₂.nil⟩
    | cons hfn hsub ih =>
      obtain ⟨l, hl, hf⟩ := ih
      exact ⟨_ :: l, hl.cons₂ _, List.Forall₂.cons hfn hf⟩
    | skip hsub ih =>
      obtain ⟨l, hl, hf⟩ := ih
      exact ⟨l, hl.cons _, hf⟩
  · rintro ⟨l, hl, hf⟩
    induction hl generalizing ns with
    | slnil => cases hf; exact MatchSub.nil []
    | cons a hsub ih => exact MatchSub.skip (ih hf)
    | cons₂ a hsub ih =>
      cases hf with
      | cons hab hf2 => exact MatchSub.cons hab (ih hf2)

theorem sublist_forall₂_iff_existsIncreasing {fn : GoStr → GoStr → Bool}
    {hs ns : List GoStr} :
    (∃ l, l.Sublist hs ∧ List.Forall₂ (fun a b => fn a b = true) l ns) ↔
      ExistsIncreasingMatch fn hs ns := by
  constructor
  · rintro ⟨l, hl, hf⟩
    obtain ⟨f, hfget⟩ := List.sublist_iff_exists_fin_orderEmbedding_get_eq.mp hl
    obtain ⟨hlen, hpt⟩ := List.forall₂_iff_get.mp hf
    refine ⟨fun j => f (Fin.cast hlen.symm j), ?_, ?_⟩
    · intro a b hab
      exact f.strictMono ((Fin.cast_lt_cast _).mpr hab)
    · intro j
      rw [← hfget (Fin.cast hlen.symm j)]
      have := hpt j.val (by simp [hlen]) j.isLt
      simpa using this
  · rintro ⟨idx, hmono, hpred⟩
    refine ⟨List.ofFn (fun j => hs.get (idx j)), ?_, ?_⟩
    · rw [List.sublist_iff_exists_fin_orderEmbedding_get_eq]
      refine ⟨OrderEmbedding.ofStrictMono
        (fun i => idx (Fin.cast (List.length_ofFn _) i))
        (fun a b hab => hmono ((Fin.cast_lt_cast _).mpr hab)), ?_⟩
      intro ix
      rw [List.get_ofFn]
      rfl
    · rw [List.forall₂_iff_get]
      refine ⟨List.length_ofFn _, ?_⟩
      intro i h₁ h₂
      rw [List.get_ofFn]
      have h3 : Fin.cast (List.length_ofFn fun j => hs.get (idx j)) ⟨i, h₁⟩ =
          (⟨i, h₂⟩ : Fin ns.length) := Fin.ext rfl
      rw [h3]
      have := hpred ⟨i, h₂⟩
      simpa using this

theorem existsIncreasingMatch_length_le {fn : GoStr → GoStr → Bool}
    {hs ns : List GoStr} (h : ExistsIncreasingMatch fn hs ns) :
    ns.length ≤ hs.length := by
  obtain ⟨l, hl, hf⟩ := sublist_forall₂_iff_existsIncreasing.mpr h
  have hlen := (List.forall₂_iff_get.mp hf).1
  calc ns.length = l.length := hlen.symm
    _ ≤ hs.length := hl.length_le

theorem matchSlices_iff {hs ns : List GoStr} {fn : GoStr → GoStr → Bool} :
    matchSlices hs ns fn = true ↔ ExistsIncreasingMatch fn hs ns := by
  unfold matchSlices
  by_cases hlen : ns.length > hs.length
  · rw [if_pos hlen]
    constructor
    · intro h; cases h
    · intro h
      exact absurd (existsIncreasingMatch_length_le h) (by omega)
  · rw [if_neg hlen]
    exact matchGreedy_iff.trans (matchSub_iff_sublist.trans sublist_forall₂_iff_existsIncreasing)

/-- C2: `matchSlices(haystack, needles, fn)` returns `true` if and only if
there exists a strictly increasing sequence of haystack positions, one per
needle, with `fn` true at every pair; an empty needle sequence yields `true`
unconditionally, and a needle sequence longer than the haystack yields
`false`. -/
theorem C2_matchSlices_correct (hs ns : List GoStr) (fn : GoStr → GoStr → Bool) :
    (matchSlices hs ns fn = true ↔ ExistsIncreasingMatch fn hs ns) ∧
    (ns = [] → matchSlices hs ns fn = true) ∧
    (hs.length < ns.length → matchSlices hs ns fn = false) := by
  refine ⟨matchSlices_iff, ?_, ?_⟩
  · rintro rfl
    unfold matchSlices
    rw [if_neg (by simp)]
    exact matchGreedy_nil_needles fn hs
  · intro h
    unfold matchSlices
    rw [if_pos (by omega)]

/-- Witness for C2 at the last test vector of the repository's own test file:
needles `["a","b"]` match haystack `["aa","bb","c","d"]` under has-prefix. -/
theorem C2_matchSlices_correct_witness :
    ExistsIncreasingMatch goHasPre [gs "aa", gs "bb", gs "c", gs "d"] [gs "a", gs "b"] :=
  (C2_matchSlices_correct [gs "aa", gs "bb", gs "c", gs "d"] [gs "a", gs "b"] goHasPre).1.mp
    (by decide)

/-! ### The corpus builder -/

theorem dropWhile_dropWhile_self {p : Char → Bool} (l : List Char) :
    (l.dropWhile p).dropWhile p = l.dropWhile p := by
  induction l with
  | nil => rfl
  | cons h t ih =>
    cases hp : p h with
    | true => simp [List.dropWhile_cons, hp, ih]
    | false => simp [List.dropWhile_cons, hp]

theorem normalize_idem (s : GoStr) : normalize (normalize s) = normalize s := by
  unfold normalize
  rw [List.reverse_reverse, dropWhile_dropWhile_self]

theorem head?_dropWhile_false {p : Char → Bool} :
    ∀ {l : List Char} {c : Char}, (l.dropWhile p).head? = some c → p c = false := by
  intro l
  induction l with
  | nil => intro c h; cases h
  | cons hd tl ih =>
    intro c h
    cases hp : p hd with
    | true =>
      rw [List.dropWhile_cons, if_pos (by simp [hp])] at h
      exact ih h
    | false =>
      rw [List.dropWhile_cons, if_neg (by simp [hp])] at h
      cases h
      exact hp

theorem normalize_getLast? {s : GoStr} {c : Char}
    (h : (normalize s).getLast? = some c) : isCutset c = false := by
  rw [normalize, List.getLast?_reverse] at h
  exact head?_dropWhile_false h

theorem mem_dedupNormalize {x : GoStr} :
    ∀ {l seen : List GoStr},
      x ∈ dedupNormalize l seen ↔ (∃ c ∈ l, normalize c = x) ∧ x ∉ seen := by
  intro l
  induction l with
  | nil => intro seen; simp [dedupNormalize]
  | cons h t ih =>
    intro seen
    simp only [dedupNormalize]
    by_cases hmem : normalize h ∈ seen
    · rw [if_pos hmem, ih]
      constructor
      · rintro ⟨⟨c, hc, hcx⟩, hx⟩
        exact ⟨⟨c, List.mem_cons_of_mem _ hc, hcx⟩, hx⟩
      · rintro ⟨⟨c, hc, hcx⟩, hx⟩
        rcases List.mem_cons.mp hc with rfl | hc2
        · exact absurd (hcx ▸ hmem) hx
        · exact ⟨⟨c, hc2, hcx⟩, hx⟩
    · rw [if_neg hmem, List.mem_cons, ih]
      constructor
      · rintro (rfl | ⟨⟨c, hc, hcx⟩, hx⟩)
        · exact ⟨⟨h, List.mem_cons_self _ _, rfl⟩, hmem⟩
        · exact ⟨⟨c, List.mem_cons_of_mem _ hc, hcx⟩,
            fun hxs => hx (List.mem_cons_of_mem _ hxs)⟩
      · rintro ⟨⟨c, hc, hcx⟩, hx⟩
        rcases List.mem_cons.mp hc with rfl | hc2
        · exact Or.inl hcx.symm
        · by_cases hxh : x = normalize h
          · exact Or.inl hxh
          · exact Or.inr ⟨⟨c, hc2, hcx⟩, by simp [List.mem_cons, hxh, hx]⟩

theorem nodup_dedupNormalize : ∀ (l seen : List GoStr), (dedupNormalize l seen).Nodup := by
  intro l
  induction l with
  | nil => intro seen; simp [dedupNormalize]
  | cons h t ih =>
    intro seen
    simp only [dedupNormalize]
    by_cases hmem : normalize h ∈ seen
    · rw [if_pos hmem]; exact ih seen
    · rw [if_neg hmem]
      refine List.Nodup.cons ?_ (ih _)
      intro hcontra
      exact (mem_dedupNormalize.mp hcontra).2 (List.mem_cons_self _ _)

theorem newServer_cmds (hist : List GoStr) :
    (newServer hist).cmds = dedupNormalize hist.reverse [] := rfl

theorem newServer_lowerCmds (hist : List GoStr) :
    (newServer hist).lowerCmds = (newServer hist).cmds.map toLowerStr := rfl

theorem newServer_restoreCase (hist : List GoStr) (lower : GoStr) :
    (newServer hist).restoreCase lower =
      (newServer hist).cmds.filter (fun c => toLowerStr c == lower) := rfl

theorem newServer_cmds_nodup (hist : List GoStr) : (newServer hist).cmds.Nodup :=
  nodup_dedupNormalize _ _

/-- C3 counterexample: after the single history record `";"` (whose normalized
text is empty), the empty string is an entry of the Corpus — the builder does
not discard records whose normalized text is empty. -/
theorem C3_counterexample : ([] : GoStr) ∈ (newServer [gs ";"]).cmds := by decide

/-- C3 amended: the Corpus Builder keeps records whose normalized text is
empty like any other record — the empty string is an entry of the Corpus
exactly when some input record's text normalizes to the empty string. -/
theorem C3_amended_empty_mem_iff (hist : List GoStr) :
    ([] : GoStr) ∈ (newServer hist).cmds ↔ ∃ c ∈ hist, normalize c = [] := by
  rw [newServer_cmds, mem_dedupNormalize]
  simp [List.mem_reverse]

/-- C10: every Corpus entry is a fixpoint of `normalize`: it ends with none of
the trimmed characters, so normalizing it again changes nothing. -/
theorem C10_corpus_normalized (hist : List GoStr) (e : GoStr)
    (he : e ∈ (newServer hist).cmds) :
    normalize e = e ∧ ∀ c, e.getLast? = some c → isCutset c = false := by
  rw [newServer_cmds, mem_dedupNormalize] at he
  obtain ⟨⟨c, _, rfl⟩, -⟩ := he
  exact ⟨normalize_idem c, fun _ h => normalize_getLast? h⟩

/-- Witness for C10: the corpus built from the record `"ls; "` contains the
entry `"ls"`, a normalize fixpoint. -/
theorem C10_corpus_normalized_witness : normalize (gs "ls") = gs "ls" :=
  (C10_corpus_normalized [gs "ls; "] (gs "ls") (by decide)).1

/-! ### The fuzzy query preprocessing -/

/-- C6 counterexample: on the query `"a\tb"`, the string the Fuzzy strategy
hands to the external capability (observed here through an oracle that echoes
its query argument back as a match) still contains the TAB character, which is
whitespace — so not all whitespace is stripped. -/
theorem C6_counterexample :
    fuzzyMatch (fun q _ => if q.contains '\t' then [⟨q, 0, 0⟩] else [])
        ⟨[], gs "a\tb", 10⟩ =
      .ok ([gs "a\tb"], ⟨[], gs "a\tb", 10⟩) ∧ goIsSpace '\t' = true := by
  constructor
  · rfl
  · rfl

/-- C6 amended: before invoking the external fuzzy capability, every space
character (U+0020) — but only spaces, not all whitespace — is removed from
the query: `fuzzyMatch` hands the capability `stripSpaces query`, which
contains no space character. -/
theorem C6_amended_no_space (q : GoStr) :
    (stripSpaces q).all (fun c => c != ' ') = true := by
  rw [List.all_eq_true]
  intro c hc
  exact (List.mem_filter.mp hc).2

/-! ### The result-accumulation loop -/

theorem pushUnseen_keeps_front :
    ∀ (cs results seen : List GoStr), results <+: (pushUnseen cs results seen).1 := by
  intro cs
  induction cs with
  | nil => intro results seen; exact List.prefix_rfl
  | cons c t ih =>
    intro results seen
    simp only [pushUnseen]
    by_cases hc : c ∈ seen
    · rw [if_pos hc]; exact ih results seen
    · rw [if_neg hc]
      exact (List.prefix_append results [c]).trans (ih _ _)

theorem pushUnseen_agree_nodup :
    ∀ (cs results seen : List GoStr), (∀ x, x ∈ seen ↔ x ∈ results) → results.Nodup →
      (∀ x, x ∈ (pushUnseen cs results seen).2 ↔ x ∈ (pushUnseen cs results seen).1) ∧
        (pushUnseen cs results seen).1.Nodup := by
  intro cs
  induction cs with
  | nil => intro results seen hag hnd; exact ⟨hag, hnd⟩
  | cons c t ih =>
    intro results seen hag hnd
    simp only [pushUnseen]
    by_cases hc : c ∈ seen
    · rw [if_pos hc]; exact ih results seen hag hnd
    · rw [if_neg hc]
      refine ih _ _ ?_ ?_
      · intro x
        simp only [List.mem_cons, List.mem_append, List.mem_singleton]
        rw [hag x]
        tauto
      · have hcr : c ∉ results := fun h => hc ((hag c).mpr h)
        simp [List.nodup_append, hnd, hcr]

theorem pushUnseen_mem_sub :
    ∀ (cs results seen : List GoStr) (x : GoStr),
      x ∈ (pushUnseen cs results seen).1 → x ∈ results ∨ x ∈ cs := by
  intro cs
  induction cs with
  | nil => intro results seen x hx; exact Or.inl hx
  | cons c t ih =>
    intro results seen x hx
    simp only [pushUnseen] at hx
    by_cases hc : c ∈ seen
    · rw [if_pos hc] at hx
      rcases ih _ _ _ hx with h | h
      · exact Or.inl h
      · exact Or.inr (List.mem_cons_of_mem _ h)
    · rw [if_neg hc] at hx
      rcases ih _ _ _ hx with h | h
      · rcases List.mem_append.mp h with h2 | h2
        · exact Or.inl h2
        · exact Or.inr (List.mem_cons.mpr (Or.inl (List.mem_singleton.mp h2)))
      · exact Or.inr (List.mem_cons_of_mem _ h)

theorem pushUnseen_seen_sub :
    ∀ (cs results seen : List GoStr) (x : GoStr),
      x ∈ seen → x ∈ (pushUnseen cs results seen).2 := by
  intro cs
  induction cs with
  | nil => intro results seen x hx; exact hx
  | cons c t ih =>
    intro results seen x hx
    simp only [pushUnseen]
    by_cases hc : c ∈ seen
    · rw [if_pos hc]; exact ih _ _ _ hx
    · rw [if_neg hc]; exact ih _ _ _ (List.mem_cons_of_mem _ hx)

theorem pushUnseen_covers :
    ∀ (cs results seen : List GoStr) (c : GoStr),
      c ∈ cs → c ∈ (pushUnseen cs results seen).2 := by
  intro cs
  induction cs with
  | nil => intro results seen c hc; cases hc
  | cons c0 t ih =>
    intro results seen c hc
    simp only [pushUnseen]
    rcases List.mem_cons.mp hc with rfl | hct
    · by_cases hc0 : c ∈ seen
      · rw [if_pos hc0]; exact pushUnseen_seen_sub _ _ _ _ hc0
      · rw [if_neg hc0]
        exact pushUnseen_seen_sub _ _ _ _ (List.mem_cons_self _ _)
    · by_cases hc0 : c0 ∈ seen
      · rw [if_pos hc0]; exact ih _ _ _ hct
      · rw [if_neg hc0]; exact ih _ _ _ hct

theorem pushUnseen_all_seen :
    ∀ (cs results seen : List GoStr), (∀ c ∈ cs, c ∈ seen) →
      pushUnseen cs results seen = (results, seen) := by
  intro cs
  induction cs with
  | nil => intro results seen _; rfl
  | cons c t ih =>
    intro results seen hall
    simp only [pushUnseen]
    rw [if_pos (hall c (List.mem_cons_self _ _))]
    exact ih _ _ (fun d hd => hall d (List.mem_cons_of_mem _ hd))

theorem pushUnseen_fresh :
    ∀ (cs results seen : List GoStr), cs.Nodup → (∀ c ∈ cs, c ∉ seen) →
      (pushUnseen cs results seen).1 = results ++ cs := by
  intro cs
  induction cs with
  | nil => intro results seen _ _; simp [pushUnseen]
  | cons c t ih =>
    intro results seen hnd hfresh
    simp only [pushUnseen]
    rw [if_neg (hfresh c (List.mem_cons_self _ _))]
    rw [ih (results ++ [c]) (c :: seen) hnd.of_cons]
    · simp
    · intro d hd
      simp only [List.mem_cons]
      push_neg
      exact ⟨fun hdc => (List.nodup_cons.mp hnd).1 (hdc ▸ hd),
        hfresh d (List.mem_cons_of_mem _ hd)⟩

theorem processOuts_cons (cs : Bool) (restoref : GoStr → List GoStr) (out : GoStr)
    (outs results seen : List GoStr) :
    processOuts cs restoref (out :: outs) results seen =
      if cs = false ∧ restoref out = [] then .error .missingRestoreCase
      else
        processOuts cs restoref outs
          (pushUnseen (restoreExpand cs restoref out) results seen).1
          (pushUnseen (restoreExpand cs restoref out) results seen).2 := by
  cases cs with
  | true => simp [processOuts, restoreExpand]
  | false =>
    simp only [processOuts, restoreExpand, Bool.false_eq_true, if_false]
    by_cases hre : restoref out = []
    · rw [if_pos hre]
      simp [hre]
    · rw [if_neg hre]
      simp [hre]

theorem processOuts_keeps_front {cs : Bool} {restoref : GoStr → List GoStr} :
    ∀ {outs results seen r' s'},
      processOuts cs restoref outs results seen = .ok (r', s') → results <+: r' := by
  intro outs
  induction outs with
  | nil =>
    intro results seen r' s' h
    cases h
    exact List.prefix_rfl
  | cons out t ih =>
    intro results seen r' s' h
    rw [processOuts_cons] at h
    by_cases hcase : cs = false ∧ restoref out = []
    · rw [if_pos hcase] at h; cases h
    · rw [if_neg hcase] at h
      exact (pushUnseen_keeps_front _ _ _).trans (ih h)

theorem processOuts_agree_nodup {cs : Bool} {restoref : GoStr → List GoStr} :
    ∀ {outs results seen r' s'},
      (∀ x, x ∈ seen ↔ x ∈ results) → results.Nodup →
      processOuts cs restoref outs results seen = .ok (r', s') →
      (∀ x, x ∈ s' ↔ x ∈ r') ∧ r'.Nodup := by
  intro outs
  induction outs with
  | nil =>
    intro results seen r' s' hag hnd h
    cases h
    exact ⟨hag, hnd⟩
  | cons out t ih =>
    intro results seen r' s' hag hnd h
    rw [processOuts_cons] at h
    by_cases hcase : cs = false ∧ restoref out = []
    · rw [if_pos hcase] at h; cases h
    · rw [if_neg hcase] at h
      obtain ⟨hag2, hnd2⟩ := pushUnseen_agree_nodup (restoreExpand cs restoref out)
        results seen hag hnd
      exact ih hag2 hnd2 h

theorem processOuts_mem_sub {cs : Bool} {restoref : GoStr → List GoStr} :
    ∀ {outs results seen r' s'},
      processOuts cs restoref outs results seen = .ok (r', s') →
      ∀ x ∈ r', x ∈ results ∨ ∃ out ∈ outs, x ∈ restoreExpand cs restoref out := by
  intro outs
  induction outs with
  | nil =>
    intro results seen r' s' h x hx
    cases h
    exact Or.inl hx
  | cons out t ih =>
    intro results seen r' s' h x hx
    rw [processOuts_cons] at h
    by_cases hcase : cs = false ∧ restoref out = []
    · rw [if_pos hcase] at h; cases h
    · rw [if_neg hcase] at h
      rcases ih h x hx with h2 | ⟨o, ho, hxo⟩
      · rcases pushUnseen_mem_sub _ _ _ _ h2 with h3 | h3
        · exact Or.inl h3
        · exact Or.inr ⟨out, List.mem_cons_self _ _, h3⟩
      · exact Or.inr ⟨o, List.mem_cons_of_mem _ ho, hxo⟩

theorem processOuts_seen_sub {cs : Bool} {restoref : GoStr → List GoStr} :
    ∀ {outs results seen r' s'},
      processOuts cs restoref outs results seen = .ok (r', s') →
      ∀ x ∈ seen, x ∈ s' := by
  intro outs
  induction outs with
  | nil =>
    intro results seen r' s' h x hx
    cases h
    exact hx
  | cons out t ih =>
    intro results seen r' s' h x hx
    rw [processOuts_cons] at h
    by_cases hcase : cs = false ∧ restoref out = []
    · rw [if_pos hcase] at h; cases h
    · rw [if_neg hcase] at h
      exact ih h x (pushUnseen_seen_sub _ _ _ _ hx)

theorem processOuts_covers {cs : Bool} {restoref : GoStr → List GoStr} :
    ∀ {outs results seen r' s'},
      processOuts cs restoref outs results seen = .ok (r', s') →
      ∀ out ∈ outs, ∀ x ∈ restoreExpand cs restoref out, x ∈ s' := by
  intro outs
  induction outs with
  | nil =>
    intro results seen r' s' h out hout
    cases hout
  | cons out0 t ih =>
    intro results seen r' s' h out hout x hx
    rw [processOuts_cons] at h
    by_cases hcase : cs = false ∧ restoref out0 = []
    · rw [if_pos hcase] at h; cases h
    · rw [if_neg hcase] at h
      rcases List.mem_cons.mp hout with rfl | hout2
      · exact processOuts_seen_sub h x (pushUnseen_covers _ _ _ _ hx)
      · exact ih h out hout2 x hx

theorem processOuts_ok_of_nonempty {cs : Bool} {restoref : GoStr → List GoStr} :
    ∀ {outs : List GoStr} {results seen : List GoStr},
      (cs = true ∨ ∀ out ∈ outs, restoref out ≠ []) →
      ∃ r' s', processOuts cs restoref outs results seen = .ok (r', s') := by
  intro outs
  induction outs with
  | nil => intro results seen _; exact ⟨_, _, rfl⟩
  | cons out t ih =>
    intro results seen hne
    rw [processOuts_cons]
    have hcase : ¬(cs = false ∧ restoref out = []) := by
      rcases hne with h | h
      · rintro ⟨h1, -⟩; rw [h] at h1; cases h1
      · rintro ⟨-, h2⟩; exact h out (List.mem_cons_self _ _) h2
    rw [if_neg hcase]
    refine ih ?_
    rcases hne with h | h
    · exact Or.inl h
    · exact Or.inr fun o ho => h o (List.mem_cons_of_mem _ ho)

theorem processOuts_all_seen {restoref : GoStr → List GoStr} :
    ∀ {outs results seen : List GoStr},
      (∀ out ∈ outs, out ∈ seen) →
      processOuts true restoref outs results seen = .ok (results, seen) := by
  intro outs
  induction outs with
  | nil => intro results seen _; rfl
  | cons out t ih =>
    intro results seen hall
    rw [processOuts_cons]
    rw [if_neg (by simp)]
    have : restoreExpand true restoref out = [out] := rfl
    rw [this, pushUnseen_all_seen [out] results seen
      (by intro c hc; rw [List.mem_singleton.mp hc]; exact hall out (List.mem_cons_self _ _))]
    exact ih fun o ho => hall o (List.mem_cons_of_mem _ ho)

theorem processOuts_fresh {restoref : GoStr → List GoStr} :
    ∀ {outs results seen : List GoStr},
      outs.Nodup → (∀ out ∈ outs, out ∉ seen) → (∀ x, x ∈ seen ↔ x ∈ results) →
      ∃ s', processOuts true restoref outs results seen = .ok (results ++ outs, s') := by
  intro outs
  induction outs with
  | nil => intro results seen _ _ _; exact ⟨seen, by simp [processOuts]⟩
  | cons out t ih =>
    intro results seen hnd hfresh hag
    rw [processOuts_cons, if_neg (by simp)]
    have hre : restoreExpand true restoref out = [out] := rfl
    rw [hre]
    have hout : out ∉ seen := hfresh out (List.mem_cons_self _ _)
    simp only [pushUnseen, if_neg hout]
    have hfresh2 : ∀ o ∈ t, o ∉ out :: seen := by
      intro o ho hmem
      rcases List.mem_cons.mp hmem with hoc | hos
      · exact (List.nodup_cons.mp hnd).1 (hoc ▸ ho)
      · exact hfresh o (List.mem_cons_of_mem _ ho) hos
    have hag2 : ∀ x, x ∈ out :: seen ↔ x ∈ results ++ [out] := by
      intro x
      simp only [List.mem_cons, List.mem_append, List.mem_singleton]
      rw [hag x]
      tauto
    obtain ⟨s', hs'⟩ := @ih (results ++ [out]) (out :: seen) hnd.of_cons hfresh2 hag2
    refine ⟨s', ?_⟩
    rw [hs']
    simp

/-! ### Strategy-level facts -/

theorem collectMatches_subset {p : GoStr → Bool} {maxResults : Int} :
    ∀ {l : List GoStr} {k : Nat} {x : GoStr},
      x ∈ collectMatches p maxResults l k → x ∈ l := by
  intro l
  induction l with
  | nil => intro k x hx; cases hx
  | cons c rest ih =>
    intro k x hx
    simp only [collectMatches] at hx
    by_cases hp : p c = true
    · rw [if_pos hp] at hx
      by_cases hk : ((k + 1 : Nat) : Int) ≥ maxResults
      · rw [if_pos hk] at hx
        rw [List.mem_singleton.mp hx]
        exact List.mem_cons_self _ _
      · rw [if_neg hk] at hx
        rcases List.mem_cons.mp hx with rfl | h2
        · exact List.mem_cons_self _ _
        · exact List.mem_cons_of_mem _ (ih h2)
    · rw [if_neg hp] at hx
      exact List.mem_cons_of_mem _ (ih hx)

theorem recent_nice : StratNice recent := by
  intro r got r' h
  unfold recent at h
  by_cases hq : r.query ≠ []
  · rw [if_pos hq] at h
    simp only [Except.ok.injEq, Prod.mk.injEq] at h
    obtain ⟨rfl, rfl⟩ := h
    exact ⟨by simp [List.Subset.refl], by simp [List.Subset.refl], rfl, rfl⟩
  · rw [if_neg hq] at h
    by_cases hlen : (r.cmds.length : Int) > r.maxResults
    · rw [if_pos hlen] at h
      by_cases hmr : 0 ≤ r.maxResults
      · rw [if_pos hmr] at h
        simp only [Except.ok.injEq, Prod.mk.injEq] at h
        obtain ⟨rfl, rfl⟩ := h
        exact ⟨List.take_subset _ _, List.take_subset _ _, rfl, rfl⟩
      · rw [if_neg hmr] at h
        cases h
    · rw [if_neg hlen] at h
      simp only [Except.ok.injEq, Prod.mk.injEq] at h
      obtain ⟨rfl, rfl⟩ := h
      exact ⟨fun x hx => hx, fun x hx => hx, rfl, rfl⟩

theorem recent_safeErr : StratSafeErr recent := by
  intro r e h
  unfold recent at h
  by_cases hq : r.query ≠ []
  · rw [if_pos hq] at h; cases h
  · rw [if_neg hq] at h
    by_cases hlen : (r.cmds.length : Int) > r.maxResults
    · rw [if_pos hlen] at h
      by_cases hmr : 0 ≤ r.maxResults
      · rw [if_pos hmr] at h; cases h
      · rw [if_neg hmr] at h
        cases h
        rfl
    · rw [if_neg hlen] at h; cases h

theorem singleMatch_nice (fn : GoStr → GoStr → Bool) : StratNice (singleMatch fn) := by
  intro r got r' h
  simp only [singleMatch, Except.ok.injEq, Prod.mk.injEq] at h
  obtain ⟨rfl, rfl⟩ := h
  exact ⟨fun x hx => collectMatches_subset hx, fun x hx => hx, rfl, rfl⟩

theorem singleMatch_pure (fn : GoStr → GoStr → Bool) : StratPure (singleMatch fn) := by
  intro r got r' h
  simp only [singleMatch, Except.ok.injEq, Prod.mk.injEq] at h
  exact h.2.symm

theorem singleMatch_safeErr (fn : GoStr → GoStr → Bool) : StratSafeErr (singleMatch fn) := by
  intro r e h
  simp only [singleMatch] at h
  cases h

theorem multiMatch_nice (needles : List GoStr) (fn : GoStr → GoStr → Bool) :
    StratNice (multiMatch needles fn) := by
  intro r got r' h
  simp only [multiMatch, Except.ok.injEq, Prod.mk.injEq] at h
  obtain ⟨rfl, rfl⟩ := h
  exact ⟨fun x hx => collectMatches_subset hx, fun x hx => hx, rfl, rfl⟩

theorem multiMatch_pure (needles : List GoStr) (fn : GoStr → GoStr → Bool) :
    StratPure (multiMatch needles fn) := by
  intro r got r' h
  simp only [multiMatch, Except.ok.injEq, Prod.mk.injEq] at h
  exact h.2.symm

theorem multiMatch_safeErr (needles : List GoStr) (fn : GoStr → GoStr → Bool) :
    StratSafeErr (multiMatch needles fn) := by
  intro r e h
  simp only [multiMatch] at h
  cases h

theorem fuzzyMatch_nice {oracle : RankOracle} (hOr : OracleOK oracle) :
    StratNice (fuzzyMatch oracle) := by
  intro r got r' h
  simp only [fuzzyMatch] at h
  have hmem : ∀ rk : Rank,
      rk ∈ List.insertionSort rankLE (oracle (stripSpaces r.query) r.cmds) →
      rk.target ∈ r.cmds := by
    intro rk hrk
    exact hOr _ _ _ ((List.perm_insertionSort rankLE _).mem_iff.mp hrk)
  by_cases hlen : ((List.insertionSort rankLE (oracle (stripSpaces r.query) r.cmds)).length : Int) >
      r.maxResults
  · rw [if_pos hlen] at h
    by_cases hmr : 0 ≤ r.maxResults
    · rw [if_pos hmr] at h
      simp only [Except.ok.injEq, Prod.mk.injEq] at h
      obtain ⟨rfl, rfl⟩ := h
      refine ⟨?_, fun x hx => hx, rfl, rfl⟩
      intro x hx
      obtain ⟨rk, hrk, rfl⟩ := List.mem_map.mp hx
      exact hmem rk (List.take_subset _ _ hrk)
    · rw [if_neg hmr] at h
      cases h
  · rw [if_neg hlen] at h
    simp only [Except.ok.injEq, Prod.mk.injEq] at h
    obtain ⟨rfl, rfl⟩ := h
    refine ⟨?_, fun x hx => hx, rfl, rfl⟩
    intro x hx
    obtain ⟨rk, hrk, rfl⟩ := List.mem_map.mp hx
    exact hmem rk hrk

theorem fuzzyMatch_pure (oracle : RankOracle) : StratPure (fuzzyMatch oracle) := by
  intro r got r' h
  simp only [fuzzyMatch] at h
  by_cases hlen : ((List.insertionSort rankLE (oracle (stripSpaces r.query) r.cmds)).length : Int) >
      r.maxResults
  · rw [if_pos hlen] at h
    by_cases hmr : 0 ≤ r.maxResults
    · rw [if_pos hmr] at h
      simp only [Except.ok.injEq, Prod.mk.injEq] at h
      exact h.2.symm
    · rw [if_neg hmr] at h
      cases h
  · rw [if_neg hlen] at h
    simp only [Except.ok.injEq, Prod.mk.injEq] at h
    exact h.2.symm

theorem fuzzyMatch_safeErr (oracle : RankOracle) : StratSafeErr (fuzzyMatch oracle) := by
  intro r e h
  simp only [fuzzyMatch] at h
  by_cases hlen : ((List.insertionSort rankLE (oracle (stripSpaces r.query) r.cmds)).length : Int) >
      r.maxResults
  · rw [if_pos hlen] at h
    by_cases hmr : 0 ≤ r.maxResults
    · rw [if_pos hmr] at h; cases h
    · rw [if_neg hmr] at h
      cases h
      rfl
  · rw [if_neg hlen] at h; cases h

theorem searchers_nice {oracle : RankOracle} (hOr : OracleOK oracle) :
    ∀ fn ∈ searchers oracle, StratNice fn ∧ StratSafeErr fn := by
  intro fn hfn
  simp only [searchers, List.mem_cons, List.not_mem_nil, or_false] at hfn
  rcases hfn with rfl | rfl | rfl | rfl | rfl | rfl | rfl
  · exact ⟨recent_nice, recent_safeErr⟩
  · exact ⟨singleMatch_nice _, singleMatch_safeErr _⟩
  · exact ⟨singleMatch_nice _, singleMatch_safeErr _⟩
  · exact ⟨fun r => multiMatch_nice _ _ r, fun r => multiMatch_safeErr _ _ r⟩
  · exact ⟨fun r => multiMatch_nice _ _ r, fun r => multiMatch_safeErr _ _ r⟩
  · exact ⟨fun r => multiMatch_nice _ _ r, fun r => multiMatch_safeErr _ _ r⟩
  · exact ⟨fuzzyMatch_nice hOr, fuzzyMatch_safeErr _⟩

/-! ### Cascade-level facts -/

theorem initIReq_cmds (srv : Server) (req : Request) :
    (initIReq srv req).cmds = if req.caseSensitive then srv.cmds else srv.lowerCmds := by
  unfold initIReq
  split <;> rfl

theorem initIReq_maxResults (srv : Server) (req : Request) :
    (initIReq srv req).maxResults = req.maxResults := by
  unfold initIReq
  split <;> rfl

theorem initIReq_query (srv : Server) (req : Request) :
    (initIReq srv req).query =
      if req.caseSensitive then req.query else toLowerStr req.query := by
  unfold initIReq
  split <;> rfl

theorem cascade_length_le {cs : Bool} {restoref : GoStr → List GoStr} {max : Int} :
    ∀ {fns : List Strategy} {ir : IReq} {results seen res : List GoStr},
      (cascade cs restoref max fns ir results seen).1 = .ok res →
      (res.length : Int) ≤ max ∨ (res = results ∧ fns = []) := by
  intro fns
  induction fns with
  | nil =>
    intro ir results seen res h
    simp only [cascade, Except.ok.injEq] at h
    exact Or.inr ⟨h.symm, rfl⟩
  | cons fn fns ih =>
    intro ir results seen res h
    simp only [cascade] at h
    cases hfn : fn ir with
    | error e => rw [hfn] at h; cases h
    | ok p =>
      obtain ⟨got, ir'⟩ := p
      rw [hfn] at h
      dsimp only at h
      cases hpo : processOuts cs restoref got results seen with
      | error e => rw [hpo] at h; cases h
      | ok q =>
        obtain ⟨results', seen'⟩ := q
        rw [hpo] at h
        dsimp only at h
        by_cases hguard : (results'.length : Int) ≥ max
        · rw [if_pos hguard] at h
          by_cases hmr : 0 ≤ max
          · rw [if_pos hmr] at h
            simp only [Except.ok.injEq] at h
            left
            rw [← h]
            simp only [List.length_take]
            omega
          · rw [if_neg hmr] at h
            cases h
        · rw [if_neg hguard] at h
          rcases ih h with h2 | ⟨rfl, rfl⟩
          · exact Or.inl h2
          · exact Or.inl (by omega)

theorem cascade_nodup {cs : Bool} {restoref : GoStr → List GoStr} {max : Int} :
    ∀ {fns : List Strategy} {ir : IReq} {results seen res : List GoStr},
      (∀ x, x ∈ seen ↔ x ∈ results) → results.Nodup →
      (cascade cs restoref max fns ir results seen).1 = .ok res → res.Nodup := by
  intro fns
  induction fns with
  | nil =>
    intro ir results seen res hag hnd h
    simp only [cascade, Except.ok.injEq] at h
    exact h ▸ hnd
  | cons fn fns ih =>
    intro ir results seen res hag hnd h
    simp only [cascade] at h
    cases hfn : fn ir with
    | error e => rw [hfn] at h; cases h
    | ok p =>
      obtain ⟨got, ir'⟩ := p
      rw [hfn] at h
      dsimp only at h
      cases hpo : processOuts cs restoref got results seen with
      | error e => rw [hpo] at h; cases h
      | ok q =>
        obtain ⟨results', seen'⟩ := q
        rw [hpo] at h
        dsimp only at h
        obtain ⟨hag', hnd'⟩ := processOuts_agree_nodup hag hnd hpo
        by_cases hguard : (results'.length : Int) ≥ max
        · rw [if_pos hguard] at h
          by_cases hmr : 0 ≤ max
          · rw [if_pos hmr] at h
            simp only [Except.ok.injEq] at h
            exact h ▸ (List.take_sublist _ _).nodup hnd'
          · rw [if_neg hmr] at h
            cases h
        · rw [if_neg hguard] at h
          exact ih hag' hnd' h

theorem cascade_ne_missing {cs : Bool} {restoref : GoStr → List GoStr} {max : Int}
    {V : List GoStr} :
    ∀ {fns : List Strategy} {ir : IReq} {results seen : List GoStr},
      (∀ fn ∈ fns, StratNice fn ∧ StratSafeErr fn) →
      ir.cmds ⊆ V →
      (cs = false → ∀ x ∈ V, restoref x ≠ []) →
      (cascade cs restoref max fns ir results seen).1 ≠ .error .missingRestoreCase := by
  intro fns
  induction fns with
  | nil =>
    intro ir results seen _ _ _ h
    simp only [cascade] at h
    cases h
  | cons fn fns ih =>
    intro ir results seen hfns hsub hres h
    obtain ⟨hnice, hsafe⟩ := hfns fn (List.mem_cons_self _ _)
    simp only [cascade] at h
    cases hfn : fn ir with
    | error e =>
      rw [hfn] at h
      dsimp only at h
      cases h
      exact GoPanic.noConfusion (hsafe _ _ hfn)
    | ok p =>
      obtain ⟨got, ir'⟩ := p
      rw [hfn] at h
      dsimp only at h
      obtain ⟨hgot, hir', -, -⟩ := hnice _ _ _ hfn
      have hok : ∃ r' s', processOuts cs restoref got results seen = .ok (r', s') := by
        apply processOuts_ok_of_nonempty
        cases cs with
        | true => exact Or.inl rfl
        | false =>
          exact Or.inr fun out hout => hres rfl out (hsub (hgot hout))
      obtain ⟨results', seen', hpo⟩ := hok
      rw [hpo] at h
      dsimp only at h
      by_cases hguard : (results'.length : Int) ≥ max
      · rw [if_pos hguard] at h
        by_cases hmr : 0 ≤ max
        · rw [if_pos hmr] at h
          cases h
        · rw [if_neg hmr] at h
          cases h
      · rw [if_neg hguard] at h
        exact ih (fun g hg => hfns g (List.mem_cons_of_mem _ hg))
          (fun x hx => hsub (hir' hx)) hres h

theorem restoreCase_nonempty {hist : List GoStr} {l : GoStr}
    (hl : l ∈ (newServer hist).lowerCmds) : (newServer hist).restoreCase l ≠ [] := by
  rw [newServer_lowerCmds] at hl
  obtain ⟨c, hc, rfl⟩ := List.mem_map.mp hl
  rw [newServer_restoreCase]
  exact List.ne_nil_of_mem (List.mem_filter.mpr ⟨hc, by simp⟩)

theorem cascade_cons_ok {cs : Bool} {restoref : GoStr → List GoStr} {max : Int}
    {fn : Strategy} {fns : List Strategy} {ir : IReq} {results seen got : List GoStr}
    {ir' : IReq} {results' seen' : List GoStr}
    (hfn : fn ir = .ok (got, ir'))
    (hpo : processOuts cs restoref got results seen = .ok (results', seen')) :
    cascade cs restoref max (fn :: fns) ir results seen =
      if (results'.length : Int) ≥ max then
        if 0 ≤ max then (.ok (results'.take max.toNat), [ir.cmds])
        else (.error .sliceBounds, [ir.cmds])
      else ((cascade cs restoref max fns ir' results' seen').1,
            ir.cmds :: (cascade cs restoref max fns ir' results' seen').2) := by
  conv_lhs => rw [cascade, hfn]
  dsimp only
  rw [hpo]

theorem cascade_cons_err {cs : Bool} {restoref : GoStr → List GoStr} {max : Int}
    {fn : Strategy} {fns : List Strategy} {ir : IReq} {results seen : List GoStr}
    {e : GoPanic} (hfn : fn ir = .error e) :
    cascade cs restoref max (fn :: fns) ir results seen = (.error e, [ir.cmds]) := by
  conv_lhs => rw [cascade, hfn]

/-! ### Claims about `search` -/

/-- C1: whenever `search` returns a result list (it panics on a negative
`max_results`), that list has length at most `max_results`. -/
theorem C1_search_length_le (oracle : RankOracle) (srv : Server) (req : Request)
    (res : List GoStr) (h : search oracle srv req = .ok res) :
    (res.length : Int) ≤ req.maxResults := by
  rcases cascade_length_le h with h1 | ⟨-, h2⟩
  · exact h1
  · simp [searchers] at h2

/-- Witness for C1: a corpus of one command, an empty case-sensitive query,
budget 5: one result, and 1 ≤ 5. -/
theorem C1_search_length_le_witness : (([gs "a"] : List GoStr).length : Int) ≤ 5 :=
  C1_search_length_le (fun _ _ => []) (newServer [gs "a"]) ⟨[], true, 5⟩ [gs "a"] rfl

/-- C8: whenever `search` returns a result list, it contains no duplicate
entries (as exact strings). -/
theorem C8_search_nodup (oracle : RankOracle) (srv : Server) (req : Request)
    (res : List GoStr) (h : search oracle srv req = .ok res) : res.Nodup :=
  cascade_nodup (fun x => by simp) List.nodup_nil h

/-- Witness for C8: the duplicate-heavy corpus built from records
`["x", "y", "x"]` still yields a duplicate-free result list. -/
theorem C8_search_nodup_witness : ([gs "x", gs "y"] : List GoStr).Nodup :=
  C8_search_nodup (fun _ _ => []) (newServer [gs "y", gs "x", gs "x"]) ⟨[], false, 9⟩
    [gs "x", gs "y"] rfl

/-- C9: with `max_results = 0`, `search` returns the empty result list, for
any corpus, query text, and case-sensitivity: the first strategy returns no
output and the cascade then truncates to zero results. -/
theorem C9_search_zero_budget (oracle : RankOracle) (srv : Server) (req : Request)
    (hmr : req.maxResults = 0) : search oracle srv req = .ok [] := by
  have hirmr : (initIReq srv req).maxResults = 0 := (initIReq_maxResults srv req).trans hmr
  have hrec : ∃ ir', recent (initIReq srv req) = .ok ([], ir') := by
    unfold recent
    by_cases hq : (initIReq srv req).query ≠ []
    · rw [if_pos hq]
      exact ⟨_, rfl⟩
    · rw [if_neg hq]
      by_cases hlen : ((initIReq srv req).cmds.length : Int) > (initIReq srv req).maxResults
      · rw [if_pos hlen, if_pos (by omega)]
        have htake :
            List.take (initIReq srv req).maxResults.toNat (initIReq srv req).cmds = [] := by
          rw [hirmr]
          simp
        refine ⟨{ initIReq srv req with cmds := [] }, ?_⟩
        simp only [htake]
      · rw [if_neg hlen]
        have hnil : (initIReq srv req).cmds = [] := by
          rw [hirmr] at hlen
          have : (initIReq srv req).cmds.length = 0 := by omega
          exact List.length_eq_zero.mp this
        exact ⟨_, by rw [hnil]⟩
  obtain ⟨ir', hrec⟩ := hrec
  show (cascade req.caseSensitive srv.restoreCase req.maxResults (searchers oracle)
    (initIReq srv req) [] []).1 = .ok []
  rw [show searchers oracle = recent :: [prefixMatch, substringMatch, multiPrefixMatch,
    multiSubstringMatch, anchoredPrefixMatch, fuzzyMatch oracle] from rfl]
  rw [cascade_cons_ok hrec
    (rfl : processOuts req.caseSensitive srv.restoreCase [] [] [] = .ok ([], []))]
  rw [if_pos (by simp [hmr])]
  rw [if_pos (by omega)]
  simp

/-- Witness for C9: a two-command corpus, zero budget, empty result. -/
theorem C9_search_zero_budget_witness :
    search (fun _ _ => []) (newServer [gs "x", gs "y"]) ⟨gs "x", false, 0⟩ = .ok [] :=
  C9_search_zero_budget (fun _ _ => []) (newServer [gs "x", gs "y"]) ⟨gs "x", false, 0⟩ rfl

/-- C4: on a corpus built by `newServer`, assuming the documented contract of
the external fuzzy capability, `search` never raises the internal-consistency
panic for a missing restore-case entry — every string a strategy returns from
the folded view has a non-empty entry in the restoration map. -/
theorem C4_search_no_missing_restore (oracle : RankOracle) (hOr : OracleOK oracle)
    (hist : List GoStr) (req : Request) :
    search oracle (newServer hist) req ≠ .error .missingRestoreCase := by
  refine @cascade_ne_missing _ _ _ ((initIReq (newServer hist) req).cmds) _ _ _ _
    (searchers_nice hOr) (fun x hx => hx) ?_
  intro hcs x hx
  rw [initIReq_cmds, hcs, if_neg (by simp)] at hx
  exact restoreCase_nonempty hx

/-- Witness for C4 on a corpus with case-fold collisions and a case-insensitive
query. -/
theorem C4_search_no_missing_restore_witness :
    search (fun _ _ => []) (newServer [gs "LS", gs "ls"]) ⟨gs "l", false, 4⟩ ≠
      .error .missingRestoreCase :=
  C4_search_no_missing_restore (fun _ _ => [])
    (fun _ _ rk hrk => absurd hrk (List.not_mem_nil rk)) [gs "LS", gs "ls"] ⟨gs "l", false, 4⟩

/-! ### Further cascade machinery: totality, purity, stability -/

theorem cascade_cons_perr {cs : Bool} {restoref : GoStr → List GoStr} {max : Int}
    {fn : Strategy} {fns : List Strategy} {ir : IReq} {results seen got : List GoStr}
    {ir' : IReq} {e : GoPanic}
    (hfn : fn ir = .ok (got, ir'))
    (hpo : processOuts cs restoref got results seen = .error e) :
    cascade cs restoref max (fn :: fns) ir results seen = (.error e, [ir.cmds]) := by
  conv_lhs => rw [cascade, hfn]
  dsimp only
  rw [hpo]

theorem recent_total : StratTotal recent := by
  intro r hmr
  unfold recent
  by_cases hq : r.query ≠ []
  · rw [if_pos hq]; exact ⟨_, _, rfl⟩
  · rw [if_neg hq]
    by_cases hlen : (r.cmds.length : Int) > r.maxResults
    · rw [if_pos hlen, if_pos hmr]; exact ⟨_, _, rfl⟩
    · rw [if_neg hlen]; exact ⟨_, _, rfl⟩

theorem singleMatch_total (fn : GoStr → GoStr → Bool) : StratTotal (singleMatch fn) :=
  fun _ _ => ⟨_, _, rfl⟩

theorem multiMatch_total (needles : List GoStr) (fn : GoStr → GoStr → Bool) :
    StratTotal (multiMatch needles fn) :=
  fun _ _ => ⟨_, _, rfl⟩

theorem fuzzyMatch_total (oracle : RankOracle) : StratTotal (fuzzyMatch oracle) := by
  intro r hmr
  unfold fuzzyMatch
  by_cases hlen : ((List.insertionSort rankLE (oracle (stripSpaces r.query) r.cmds)).length : Int) >
      r.maxResults
  · rw [if_pos hlen, if_pos hmr]; exact ⟨_, _, rfl⟩
  · rw [if_neg hlen]; exact ⟨_, _, rfl⟩

theorem searchers_total (oracle : RankOracle) :
    ∀ fn ∈ searchers oracle, StratTotal fn := by
  intro fn hfn
  simp only [searchers, List.mem_cons, List.not_mem_nil, or_false] at hfn
  rcases hfn with rfl | rfl | rfl | rfl | rfl | rfl | rfl
  · exact recent_total
  · exact singleMatch_total _
  · exact singleMatch_total _
  · exact fun r => multiMatch_total _ _ r
  · exact fun r => multiMatch_total _ _ r
  · exact fun r => multiMatch_total _ _ r
  · exact fuzzyMatch_total _

theorem searchers_tail_pure (oracle : RankOracle) :
    ∀ fn ∈ [prefixMatch, substringMatch, multiPrefixMatch, multiSubstringMatch,
      anchoredPrefixMatch, fuzzyMatch oracle], StratPure fn := by
  intro fn hfn
  simp only [List.mem_cons, List.not_mem_nil, or_false] at hfn
  rcases hfn with rfl | rfl | rfl | rfl | rfl | rfl
  · exact singleMatch_pure _
  · exact singleMatch_pure _
  · exact fun r => multiMatch_pure _ _ r
  · exact fun r => multiMatch_pure _ _ r
  · exact fun r => multiMatch_pure _ _ r
  · exact fuzzyMatch_pure _

/-- The four outcomes of `recent`. -/
theorem recent_cases (r : IReq) :
    (r.query ≠ [] ∧ recent r = .ok ([], r)) ∨
    (r.query = [] ∧ ¬((r.cmds.length : Int) > r.maxResults) ∧ recent r = .ok (r.cmds, r)) ∨
    (r.query = [] ∧ (r.cmds.length : Int) > r.maxResults ∧ 0 ≤ r.maxResults ∧
      recent r = .ok (r.cmds.take r.maxResults.toNat,
        { r with cmds := r.cmds.take r.maxResults.toNat })) ∨
    (r.query = [] ∧ (r.cmds.length : Int) > r.maxResults ∧ r.maxResults < 0 ∧
      recent r = .error .sliceBounds) := by
  unfold recent
  by_cases hq : r.query ≠ []
  · exact Or.inl ⟨hq, by rw [if_pos hq]⟩
  · have hq2 : r.query = [] := not_not.mp (by simpa using hq)
    by_cases hlen : (r.cmds.length : Int) > r.maxResults
    · by_cases hmr : 0 ≤ r.maxResults
      · refine Or.inr (Or.inr (Or.inl ⟨hq2, hlen, hmr, ?_⟩))
        rw [if_neg hq, if_pos hlen, if_pos hmr]
      · refine Or.inr (Or.inr (Or.inr ⟨hq2, hlen, by omega, ?_⟩))
        rw [if_neg hq, if_pos hlen, if_neg hmr]
    · refine Or.inr (Or.inl ⟨hq2, hlen, ?_⟩)
      rw [if_neg hq, if_neg hlen]

/-- Once every view entry is already seen, a case-sensitive cascade with a
still-unmet budget changes nothing: it returns the accumulated results. -/
theorem cascade_const {restoref : GoStr → List GoStr} {max : Int} :
    ∀ {fns : List Strategy} {ir : IReq} {results seen : List GoStr},
      (∀ fn ∈ fns, StratNice fn ∧ StratTotal fn) →
      (∀ x ∈ ir.cmds, x ∈ seen) →
      ((results.length : Int) < max) →
      ir.maxResults = max →
      (cascade true restoref max fns ir results seen).1 = .ok results := by
  intro fns
  induction fns with
  | nil => intro ir results seen _ _ _ _; rfl
  | cons fn fns ih =>
    intro ir results seen hfns hseen hlt hirmax
    obtain ⟨hnice, htotal⟩ := hfns fn (List.mem_cons_self _ _)
    obtain ⟨got, ir', hfn⟩ := htotal ir (by omega)
    obtain ⟨hgot, hir', -, hir'max⟩ := hnice _ _ _ hfn
    have hpo : processOuts true restoref got results seen = .ok (results, seen) :=
      processOuts_all_seen fun out hout => hseen out (hgot hout)
    rw [cascade_cons_ok hfn hpo, if_neg (by omega)]
    exact ih (fun g hg => hfns g (List.mem_cons_of_mem _ hg))
      (fun x hx => hseen x (hir' hx)) hlt (hir'max.trans hirmax)

/-- A cascade of pure strategies hands every invoked strategy the same view. -/
theorem cascade_views_pure {cs : Bool} {restoref : GoStr → List GoStr} {max : Int} :
    ∀ {fns : List Strategy} {ir : IReq} {results seen : List GoStr},
      (∀ fn ∈ fns, StratPure fn) →
      ∀ v ∈ (cascade cs restoref max fns ir results seen).2, v = ir.cmds := by
  intro fns
  induction fns with
  | nil => intro ir results seen _ v hv; cases hv
  | cons fn fns ih =>
    intro ir results seen hfns v hv
    cases hfn : fn ir with
    | error e =>
      rw [cascade_cons_err hfn] at hv
      exact List.mem_singleton.mp hv
    | ok p =>
      obtain ⟨got, ir'⟩ := p
      have hpure : ir' = ir := hfns fn (List.mem_cons_self _ _) _ _ _ hfn
      cases hpo : processOuts cs restoref got results seen with
      | error e =>
        rw [cascade_cons_perr hfn hpo] at hv
        exact List.mem_singleton.mp hv
      | ok q =>
        obtain ⟨results', seen'⟩ := q
        rw [cascade_cons_ok hfn hpo] at hv
        by_cases hguard : (results'.length : Int) ≥ max
        · rw [if_pos hguard] at hv
          by_cases hmr : 0 ≤ max
          · rw [if_pos hmr] at hv
            exact List.mem_singleton.mp hv
          · rw [if_neg hmr] at hv
            exact List.mem_singleton.mp hv
        · rw [if_neg hguard] at hv
          rcases List.mem_cons.mp hv with rfl | hv2
          · rfl
          · rw [hpure] at hv2
            exact ih (fun g hg => hfns g (List.mem_cons_of_mem _ hg)) v hv2

theorem initIReq_cmds_length (hist : List GoStr) (req : Request) :
    (initIReq (newServer hist) req).cmds.length = (newServer hist).cmds.length := by
  rw [initIReq_cmds]
  cases req.caseSensitive with
  | true => rw [if_pos rfl]
  | false => rw [if_neg (by simp), newServer_lowerCmds, List.length_map]

/-- Processing the first `m` entries of the view from a fresh state yields at
least `m` distinct restored results: each of the first `m` corpus entries ends
up in the result list. -/
theorem processOuts_length_ge {hist : List GoStr} {req : Request} {m : Nat}
    {results' seen' : List GoStr}
    (hm : m ≤ (newServer hist).cmds.length)
    (hpo : processOuts req.caseSensitive (newServer hist).restoreCase
      ((initIReq (newServer hist) req).cmds.take m) [] [] = .ok (results', seen')) :
    m ≤ results'.length := by
  have hag : ∀ x, x ∈ seen' ↔ x ∈ results' :=
    (processOuts_agree_nodup (by simp) List.nodup_nil hpo).1
  have hsub : ∀ x ∈ (newServer hist).cmds.take m, x ∈ results' := by
    intro x hx
    have hxc : x ∈ (newServer hist).cmds := List.take_subset _ _ hx
    cases hcs : req.caseSensitive with
    | true =>
      rw [initIReq_cmds, hcs, if_pos rfl] at hpo
      have hcov := processOuts_covers hpo x hx x
      exact (hag x).mp (hcov (List.mem_singleton.mpr rfl))
    | false =>
      rw [initIReq_cmds, hcs, if_neg (by simp)] at hpo
      have hout : toLowerStr x ∈ (newServer hist).lowerCmds.take m := by
        rw [newServer_lowerCmds, ← List.map_take]
        exact List.mem_map.mpr ⟨x, hx, rfl⟩
      have hcov := processOuts_covers hpo (toLowerStr x) hout x
      refine (hag x).mp (hcov ?_)
      show x ∈ restoreExpand false (newServer hist).restoreCase (toLowerStr x)
      rw [show restoreExpand false (newServer hist).restoreCase (toLowerStr x) =
        (newServer hist).restoreCase (toLowerStr x) from rfl]
      rw [newServer_restoreCase, List.mem_filter]
      exact ⟨hxc, by simp⟩
  have hnd : ((newServer hist).cmds.take m).Nodup :=
    (List.take_sublist _ _).nodup (newServer_cmds_nodup hist)
  have hlen : ((newServer hist).cmds.take m).length = m := by
    rw [List.length_take]
    omega
  calc m = ((newServer hist).cmds.take m).length := hlen.symm
    _ ≤ results'.length := (hnd.subperm hsub).length_le

/-- C5 counterexample: corpus `["B", "a", "b"]` (most-recent-first), query
`{text: "", case_sensitive: false, max_results: 2}`.  Restoration pulls in
`"b"` (the later third entry, a case-fold collision with `"B"`) before the
second entry `"a"`: Search returns `["B", "b"]`, not the first two Corpus
entries `["B", "a"]`. -/
theorem C5_counterexample :
    search (fun _ _ => []) (newServer [gs "b", gs "a", gs "B"]) ⟨[], false, 2⟩ =
        .ok [gs "B", gs "b"] ∧
      (newServer [gs "b", gs "a", gs "B"]).cmds.take 2 = [gs "B", gs "a"] ∧
      ([gs "B", gs "b"] : List GoStr) ≠ [gs "B", gs "a"] :=
  ⟨rfl, rfl, by decide⟩

/-- C5 amended: for every corpus and every case-sensitive query whose text is
empty and whose `max_results` is nonnegative, Search returns exactly the first
`min(max_results, corpus length)` Corpus entries in Corpus order, produced by
the Recent strategy (later strategies contribute nothing new); assuming the
capability contract for the fuzzy oracle.  (Case-insensitive queries can
return entries out of Corpus order when distinct entries share a case-fold,
and a negative `max_results` panics.) -/
theorem C5_amended_empty_query (oracle : RankOracle) (hOr : OracleOK oracle)
    (hist : List GoStr) (req : Request)
    (hcs : req.caseSensitive = true) (hq : req.query = []) (hmr : 0 ≤ req.maxResults) :
    search oracle (newServer hist) req =
      .ok ((newServer hist).cmds.take req.maxResults.toNat) := by
  have hir_cmds : (initIReq (newServer hist) req).cmds = (newServer hist).cmds := by
    rw [initIReq_cmds, hcs, if_pos rfl]
  have hir_q : (initIReq (newServer hist) req).query = [] := by
    rw [initIReq_query, hcs, if_pos rfl, hq]
  have hir_m : (initIReq (newServer hist) req).maxResults = req.maxResults :=
    initIReq_maxResults _ _
  have hnd : (newServer hist).cmds.Nodup := newServer_cmds_nodup hist
  show (cascade req.caseSensitive (newServer hist).restoreCase req.maxResults
    (searchers oracle) (initIReq (newServer hist) req) [] []).1 = _
  rw [show searchers oracle = recent :: [prefixMatch, substringMatch, multiPrefixMatch,
    multiSubstringMatch, anchoredPrefixMatch, fuzzyMatch oracle] from rfl, hcs]
  have htail : ∀ fn ∈ [prefixMatch, substringMatch, multiPrefixMatch,
      multiSubstringMatch, anchoredPrefixMatch, fuzzyMatch oracle],
      StratNice fn ∧ StratTotal fn := by
    intro fn hfn
    have hmem : fn ∈ searchers oracle := by
      simp only [searchers, List.mem_cons]
      simp only [List.mem_cons] at hfn
      tauto
    exact ⟨(searchers_nice hOr fn hmem).1, searchers_total oracle fn hmem⟩
  rcases recent_cases (initIReq (newServer hist) req) with
    ⟨hq', -⟩ | ⟨-, hnb, hfn⟩ | ⟨-, hb, -, hfn⟩ | ⟨-, -, hneg, -⟩
  · exact absurd hir_q hq'
  · -- the whole view fits the budget: recent returns it unchanged
    rw [hir_cmds] at hfn
    obtain ⟨s', hpo⟩ := @processOuts_fresh (newServer hist).restoreCase
      (newServer hist).cmds [] [] hnd (fun o _ ho => absurd ho (List.not_mem_nil o))
      (fun x => by simp)
    rw [List.nil_append] at hpo
    have hag' := (processOuts_agree_nodup (by simp) List.nodup_nil hpo).1
    rw [cascade_cons_ok hfn hpo]
    rw [hir_cmds, hir_m] at hnb
    by_cases hguard : (((newServer hist).cmds.length : Int)) ≥ req.maxResults
    · rw [if_pos hguard, if_pos hmr]
    · rw [if_neg hguard]
      have htake : (newServer hist).cmds.take req.maxResults.toNat = (newServer hist).cmds := by
        apply List.take_of_length_le
        omega
      rw [htake]
      exact cascade_const htail
        (by rw [hir_cmds]; intro x hx; exact (hag' x).mpr hx)
        (by omega) hir_m
  · -- the view exceeds the budget: recent truncates and the cascade stops
    rw [hir_cmds, hir_m] at hfn hb
    obtain ⟨s', hpo⟩ := @processOuts_fresh (newServer hist).restoreCase
      ((newServer hist).cmds.take req.maxResults.toNat) [] []
      ((List.take_sublist _ _).nodup hnd) (fun o _ ho => absurd ho (List.not_mem_nil o))
      (fun x => by simp)
    rw [List.nil_append] at hpo
    rw [cascade_cons_ok hfn hpo]
    have hguard : ((((newServer hist).cmds.take req.maxResults.toNat).length : Int)) ≥
        req.maxResults := by
      rw [List.length_take, Nat.min_eq_left (by omega)]
      omega
    rw [if_pos hguard, if_pos hmr]
    have : List.take req.maxResults.toNat
        ((newServer hist).cmds.take req.maxResults.toNat) =
        (newServer hist).cmds.take req.maxResults.toNat := by
      rw [List.take_take, Nat.min_self]
    rw [this]
  · rw [hir_m] at hneg
    omega

/-- Witness for C5 at a two-command corpus with budget 1. -/
theorem C5_amended_empty_query_witness :
    search (fun _ _ => []) (newServer [gs "b", gs "a"]) ⟨[], true, 1⟩ = .ok [gs "a"] :=
  (C5_amended_empty_query (fun _ _ => []) (fun _ _ rk h => absurd h (List.not_mem_nil rk))
    [gs "b", gs "a"] ⟨[], true, 1⟩ rfl rfl (by decide)).trans rfl

/-- C7 counterexample: `recent`, handed the shared request with view
`["a", "b"]`, empty query and budget 1, truncates the view of that request in
place — the request it hands back carries the view `["a"]`, not the view
`["a", "b"]` it was handed.  (The spec's own design notes flag this in-place
truncation.) -/
theorem C7_counterexample :
    recent ⟨[gs "a", gs "b"], [], 1⟩ = .ok ([gs "a"], ⟨[gs "a"], [], 1⟩) ∧
      ([gs "a"] : List GoStr) ≠ [gs "a", gs "b"] :=
  ⟨rfl, by decide⟩

/-- C7 amended: only the Recent strategy mutates the shared view (truncating
it when the query is empty and the view exceeds the budget), and whenever it
does, the cascade terminates before invoking any later strategy.  Hence every
strategy invocation inside Search still receives the original full view: every
view recorded by the instrumented cascade equals the initial one. -/
theorem C7_amended_views (oracle : RankOracle) (hist : List GoStr) (req : Request) :
    ∀ v ∈ (searchWithViews oracle (newServer hist) req).2,
      v = (initIReq (newServer hist) req).cmds := by
  intro v hv
  simp only [searchWithViews] at hv
  rw [show searchers oracle = recent :: [prefixMatch, substringMatch, multiPrefixMatch,
    multiSubstringMatch, anchoredPrefixMatch, fuzzyMatch oracle] from rfl] at hv
  rcases recent_cases (initIReq (newServer hist) req) with
    ⟨-, hfn⟩ | ⟨-, -, hfn⟩ | ⟨-, hb, hmr, hfn⟩ | ⟨-, -, -, hfn⟩
  · -- non-empty query: no mutation
    cases hpo : processOuts req.caseSensitive (newServer hist).restoreCase [] [] [] with
    | error e =>
      rw [cascade_cons_perr hfn hpo] at hv
      exact List.mem_singleton.mp hv
    | ok q =>
      obtain ⟨results', seen'⟩ := q
      rw [cascade_cons_ok hfn hpo] at hv
      by_cases hguard : ((results'.length : Int)) ≥ req.maxResults
      · rw [if_pos hguard] at hv
        by_cases hm : 0 ≤ req.maxResults
        · rw [if_pos hm] at hv; exact List.mem_singleton.mp hv
        · rw [if_neg hm] at hv; exact List.mem_singleton.mp hv
      · rw [if_neg hguard] at hv
        rcases List.mem_cons.mp hv with rfl | hv2
        · rfl
        · exact cascade_views_pure (searchers_tail_pure oracle) v hv2
  · -- view fits the budget: no mutation
    cases hpo : processOuts req.caseSensitive (newServer hist).restoreCase
      (initIReq (newServer hist) req).cmds [] [] with
    | error e =>
      rw [cascade_cons_perr hfn hpo] at hv
      exact List.mem_singleton.mp hv
    | ok q =>
      obtain ⟨results', seen'⟩ := q
      rw [cascade_cons_ok hfn hpo] at hv
      by_cases hguard : ((results'.length : Int)) ≥ req.maxResults
      · rw [if_pos hguard] at hv
        by_cases hm : 0 ≤ req.maxResults
        · rw [if_pos hm] at hv; exact List.mem_singleton.mp hv
        · rw [if_neg hm] at hv; exact List.mem_singleton.mp hv
      · rw [if_neg hguard] at hv
        rcases List.mem_cons.mp hv with rfl | hv2
        · rfl
        · exact cascade_views_pure (searchers_tail_pure oracle) v hv2
  · -- recent truncated the shared view: the cascade stops right here
    cases hpo : processOuts req.caseSensitive (newServer hist).restoreCase
      ((initIReq (newServer hist) req).cmds.take
        (initIReq (newServer hist) req).maxResults.toNat) [] [] with
    | error e =>
      rw [cascade_cons_perr hfn hpo] at hv
      exact List.mem_singleton.mp hv
    | ok q =>
      obtain ⟨results', seen'⟩ := q
      have hml : (initIReq (newServer hist) req).maxResults.toNat ≤
          (newServer hist).cmds.length := by
        rw [initIReq_maxResults] at hb hmr ⊢
        rw [initIReq_cmds_length] at hb
        omega
      have hge := processOuts_length_ge hml hpo
      have hguard : ((results'.length : Int)) ≥ req.maxResults := by
        rw [initIReq_maxResults] at hge hmr
        omega
      rw [cascade_cons_ok hfn hpo, if_pos hguard] at hv
      by_cases hm : 0 ≤ req.maxResults
      · rw [if_pos hm] at hv; exact List.mem_singleton.mp hv
      · rw [if_neg hm] at hv; exact List.mem_singleton.mp hv
  · -- negative budget: recent panics before any later strategy
    rw [cascade_cons_err hfn] at hv
    exact List.mem_singleton.mp hv

/-- Witness for C7: a query that exercises all seven strategies; the first
recorded view is the initial one. -/
theorem C7_amended_views_witness :
    (gs "x" :: []) = (initIReq (newServer [gs "x"]) ⟨gs "z", true, 5⟩).cmds :=
  C7_amended_views (fun _ _ => []) [gs "x"] ⟨gs "z", true, 5⟩ [gs "x"] (by decide)

end Rerun
